import Mathlib

/-!
Verification of the DCP stream layer of the kv_engine repository
(`dcp/stream.h`): the Stream state machine (Active / Notifier / Passive),
the ready-queue accounting, the checkpoint-processor task's deduplicated
work queue, and the backfill / checkpoint-cursor merge contract.

The header `dcp/stream.h` is the authoritative source for everything it
defines inline (enums, `Stream::isActive`, `ActiveStream::setActive`,
`ActiveStreamCheckpointProcessorTask::{pushUnique,queuePop,queueSize}`).
The member-function bodies that live in `dcp/stream.cc` are not part of
the provided sources; definitions for those are modelled from the
specification's description and are marked as such in their doc comments.
-/

namespace KVEngine

/-- `stream_state_t` from dcp/stream.h. -/
inductive stream_state_t where
  | STREAM_PENDING
  | STREAM_BACKFILLING
  | STREAM_IN_MEMORY
  | STREAM_TAKEOVER_SEND
  | STREAM_TAKEOVER_WAIT
  | STREAM_READING
  | STREAM_DEAD
  deriving DecidableEq, Repr

export stream_state_t (STREAM_PENDING STREAM_BACKFILLING STREAM_IN_MEMORY
  STREAM_TAKEOVER_SEND STREAM_TAKEOVER_WAIT STREAM_READING STREAM_DEAD)

/-- `end_stream_status_t` from dcp/stream.h. -/
inductive end_stream_status_t where
  | END_STREAM_OK
  | END_STREAM_CLOSED
  | END_STREAM_STATE
  | END_STREAM_DISCONNECTED
  | END_STREAM_SLOW
  deriving DecidableEq, Repr

export end_stream_status_t (END_STREAM_OK END_STREAM_CLOSED END_STREAM_STATE
  END_STREAM_DISCONNECTED END_STREAM_SLOW)

/-- Responses of the `DcpResponse` family that flow through a stream's
ready queue: mutations/deletions carry a by-seqno, snapshot markers carry
advertised `{start, end}` bounds, stream-end is a pure control message.
Each carries its message size in bytes (`getMessageSize`). -/
inductive DcpResponse where
  | mutation (bySeqno : Nat) (msize : Nat)
  | snapshotMarker (snapStart : Nat) (snapEnd : Nat) (msize : Nat)
  | streamEnd (msize : Nat)
  deriving DecidableEq, Repr

/-- Meta events are the control responses (markers, stream-end); mutations
and deletions are the non-meta items counted by `readyQ_non_meta_items`. -/
def DcpResponse.isMetaEvent : DcpResponse → Bool
  | .mutation _ _ => false
  | .snapshotMarker _ _ _ => true
  | .streamEnd _ => true

/-- Message size in bytes of a response, used by `readyQueueMemory`. -/
def DcpResponse.getMessageSize : DcpResponse → Nat
  | .mutation _ m => m
  | .snapshotMarker _ _ m => m
  | .streamEnd m => m

/-! ## ActiveStreamCheckpointProcessorTask work queue (dcp/stream.h, inline)

`queue` is the FIFO `std::queue<uint16_t>` (head of the list = front of the
queue); `queuedVbuckets` is the `std::unordered_set<uint16_t>` used for
deduplication. Both are guarded by `workQueueLock`, so the sequential model
below is exact. -/

structure CheckpointProcessorTask where
  queue : List Nat
  queuedVbuckets : List Nat
  deriving DecidableEq, Repr

/-- The freshly-constructed task: both containers empty. -/
def CheckpointProcessorTask.initial : CheckpointProcessorTask :=
  { queue := [], queuedVbuckets := [] }

/-- `pushUnique(vbid)` from dcp/stream.h: enqueue `vbid` and insert it in
the set only when the set does not already contain it. -/
def pushUnique (t : CheckpointProcessorTask) (vbid : Nat) : CheckpointProcessorTask :=
  if vbid ∈ t.queuedVbuckets then t
  else { queue := t.queue ++ [vbid], queuedVbuckets := vbid :: t.queuedVbuckets }

/-- `queuePop()` from dcp/stream.h (the part under `workQueueLock`): if the
queue is empty return nothing, else pop the front vbid and erase it from
the set. The subsequent producer lookup does not touch the queue. -/
def queuePop (t : CheckpointProcessorTask) : Option Nat × CheckpointProcessorTask :=
  match t.queue with
  | [] => (none, t)
  | vbid :: rest => (some vbid, { queue := rest, queuedVbuckets := t.queuedVbuckets.erase vbid })

/-- `queueSize()` from dcp/stream.h: size of the FIFO queue. -/
def queueSize (t : CheckpointProcessorTask) : Nat := t.queue.length

/-- `schedule(stream)` enqueues the stream's vbucket id via `pushUnique`. -/
def schedule (t : CheckpointProcessorTask) (vbid : Nat) : CheckpointProcessorTask :=
  pushUnique t vbid

/-- The task invariant: the FIFO queue has no duplicates and holds exactly
the vbucket ids of the dedup set (which is itself duplicate-free). -/
def taskInv (t : CheckpointProcessorTask) : Prop :=
  t.queue.Nodup ∧ t.queuedVbuckets.Nodup ∧
    ∀ v : Nat, v ∈ t.queue ↔ v ∈ t.queuedVbuckets

/-- Iterated `schedule` of the same vbucket id, with no intervening pop. -/
def scheduleN (t : CheckpointProcessorTask) (vbid : Nat) : Nat → CheckpointProcessorTask
  | 0 => t
  | n + 1 => schedule (scheduleN t vbid n) vbid

theorem taskInv_initial : taskInv CheckpointProcessorTask.initial := by
  refine ⟨List.nodup_nil, List.nodup_nil, ?_⟩
  intro v
  simp [CheckpointProcessorTask.initial]

theorem taskInv_pushUnique (t : CheckpointProcessorTask) (vbid : Nat)
    (h : taskInv t) : taskInv (pushUnique t vbid) := by
  obtain ⟨hq, hs, hiff⟩ := h
  unfold pushUnique
  by_cases hmem : vbid ∈ t.queuedVbuckets
  · simpa [hmem] using ⟨hq, hs, hiff⟩
  · have hqmem : vbid ∉ t.queue := fun hc => hmem ((hiff vbid).mp hc)
    simp only [hmem, if_false]
    refine ⟨?_, ?_, ?_⟩
    · exact List.nodup_append.mpr ⟨hq, List.nodup_singleton vbid, by
        intro a ha hb
        simp at hb
        subst hb
        exact hqmem ha⟩
    · exact List.nodup_cons.mpr ⟨hmem, hs⟩
    · intro v
      simp only [List.mem_append, List.mem_cons, List.not_mem_nil, or_false]
      constructor
      · intro hv
        rcases hv with hv | hv
        · exact Or.inr ((hiff v).mp hv)
        · exact Or.inl hv
      · intro hv
        rcases hv with hv | hv
        · exact Or.inr hv
        · exact Or.inl ((hiff v).mpr hv)

theorem taskInv_queuePop (t : CheckpointProcessorTask)
    (h : taskInv t) : taskInv (queuePop t).2 := by
  obtain ⟨hq, hs, hiff⟩ := h
  unfold queuePop
  cases hq' : t.queue with
  | nil => exact ⟨hq, hs, hiff⟩
  | cons vbid rest =>
    have hqn : (vbid :: rest).Nodup := hq' ▸ hq
    have hvrest : vbid ∉ rest := (List.nodup_cons.mp hqn).1
    have hrestn : rest.Nodup := (List.nodup_cons.mp hqn).2
    refine ⟨hrestn, List.Nodup.erase vbid hs, ?_⟩
    intro v
    constructor
    · intro hv
      have hvq : v ∈ t.queue := by rw [hq']; exact List.mem_cons_of_mem _ hv
      have hvs : v ∈ t.queuedVbuckets := (hiff v).mp hvq
      have hne : v ≠ vbid := fun hc => hvrest (hc ▸ hv)
      exact (List.Nodup.mem_erase_iff hs).mpr ⟨hne, hvs⟩
    · intro hv
      have := (List.Nodup.mem_erase_iff hs).mp hv
      obtain ⟨hne, hvs⟩ := this
      have hvq : v ∈ t.queue := (hiff v).mpr hvs
      rw [hq', List.mem_cons] at hvq
      rcases hvq with hvq | hvq
      · exact absurd hvq hne
      · exact hvq

theorem scheduleN_same (t : CheckpointProcessorTask) (vbid : Nat) (n : Nat)
    (hn : 0 < n) :
    scheduleN t vbid n = schedule t vbid := by
  induction n with
  | zero => exact absurd hn (by simp)
  | succ k ih =>
    cases Nat.eq_zero_or_pos k with
    | inl hk =>
      subst hk
      rfl
    | inr hk =>
      show schedule (scheduleN t vbid k) vbid = schedule t vbid
      rw [ih hk]
      unfold schedule pushUnique
      by_cases hmem : vbid ∈ t.queuedVbuckets <;> simp [hmem]

/-- C4: each vbucket id is pending at most once.  `pushUnique` and
`queuePop` both preserve the invariant that the FIFO queue is
duplicate-free and holds exactly the ids of the dedup set, and `n ≥ 1`
consecutive `schedule()` calls for one vbucket id starting from the empty
task leave `queueSize()` equal to `1`. -/
theorem checkpointTask_dedup (t : CheckpointProcessorTask) (vbid : Nat) (n : Nat)
    (h : taskInv t) (hn : 0 < n) :
    taskInv (pushUnique t vbid) ∧ taskInv (queuePop t).2 ∧
      queueSize (scheduleN CheckpointProcessorTask.initial vbid n) = 1 := by
  refine ⟨taskInv_pushUnique t vbid h, taskInv_queuePop t h, ?_⟩
  rw [scheduleN_same _ _ _ hn]
  simp [schedule, pushUnique, queueSize, CheckpointProcessorTask.initial]

theorem checkpointTask_dedup_witness :
    (0 : Nat) < 3 ∧ taskInv CheckpointProcessorTask.initial ∧
      queueSize (scheduleN CheckpointProcessorTask.initial 7 3) = 1 := by
  refine ⟨by decide, taskInv_initial, ?_⟩
  exact (checkpointTask_dedup CheckpointProcessorTask.initial 7 3 taskInv_initial
    (by decide)).2.2

/-! ## Stream state machine (ActiveStream) -/

/-- The per-stream mutable state the lifecycle claims are about: the
current `state_`, the mutex-guarded `readyQ` of responses, the
`itemsReady` notification flag, whether the stream currently holds a
checkpoint cursor, how many times the cursor has been released, and the
recorded end-of-stream reason. -/
structure ActiveStream where
  state_ : stream_state_t
  readyQ : List DcpResponse
  itemsReady : Bool
  cursorRegistered : Bool
  cursorDrops : Nat
  endStreamReason : Option end_stream_status_t
  deriving DecidableEq, Repr

/-- Modelled from the spec: the legal forward transitions of an Active
stream (spec §4.1): Pending→Backfilling, Backfilling→InMemory,
InMemory→Backfilling, InMemory→TakeoverSend, TakeoverSend→TakeoverWait,
TakeoverWait→TakeoverSend, any state→Dead; no transition is legal out of
Dead, which is the sole terminal state. -/
def legalTransition : stream_state_t → stream_state_t → Bool
  | STREAM_PENDING, STREAM_BACKFILLING => true
  | STREAM_BACKFILLING, STREAM_IN_MEMORY => true
  | STREAM_IN_MEMORY, STREAM_BACKFILLING => true
  | STREAM_IN_MEMORY, STREAM_TAKEOVER_SEND => true
  | STREAM_TAKEOVER_SEND, STREAM_TAKEOVER_WAIT => true
  | STREAM_TAKEOVER_WAIT, STREAM_TAKEOVER_SEND => true
  | STREAM_DEAD, _ => false
  | _, STREAM_DEAD => true
  | _, _ => false

/-- Modelled from the spec: `ActiveStream::dropCheckpointCursor_UNLOCKED`
(body absent from the provided sources) releases the checkpoint cursor if
one is registered; it is never released twice. -/
def dropCheckpointCursor (s : ActiveStream) : ActiveStream :=
  if s.cursorRegistered then
    { s with cursorRegistered := false, cursorDrops := s.cursorDrops + 1 }
  else s

/-- Modelled from the spec: `ActiveStream::transitionState` (body absent
from the provided sources) changes `state_` only along a legal edge of
§4.1 — an illegal transition is an internal fault that leaves the stream's
state unchanged, and no transition is legal out of Dead.  Entering Dead
releases the checkpoint cursor (spec §3: the cursor, if any, is released
when the stream is set dead). -/
def transitionState (s : ActiveStream) (newState : stream_state_t) : ActiveStream :=
  if legalTransition s.state_ newState then
    if newState = STREAM_DEAD then
      dropCheckpointCursor { s with state_ := newState }
    else { s with state_ := newState }
  else s

/-- `ActiveStream::setActive` from dcp/stream.h: under the stream mutex,
transition to Backfilling only when the state is Pending. -/
def setActive (s : ActiveStream) : ActiveStream :=
  if s.state_ = STREAM_PENDING then transitionState s STREAM_BACKFILLING else s

/-- Modelled from the spec: `ActiveStream::setDead` (body absent from the
provided sources) is idempotent, callable at any state, and must stop
future production, drain/discard the ready queue, release the checkpoint
cursor, and record the end-of-stream reason (spec §5 Cancellation). -/
def setDead (s : ActiveStream) (status : end_stream_status_t) : ActiveStream :=
  if s.state_ = STREAM_DEAD then s
  else transitionState
    { s with readyQ := [], endStreamReason := some status } STREAM_DEAD

/-- `Stream::isActive` from dcp/stream.h: `state_ != STREAM_DEAD`. -/
def isActive (s : ActiveStream) : Bool := s.state_ ≠ STREAM_DEAD

/-- Modelled from the spec: the freshly constructed stream (constructor
body absent from the provided sources) starts the §4.1 lifecycle in
Pending with an empty ready queue, no cursor yet and nothing produced. -/
def mkActiveStream : ActiveStream :=
  { state_ := STREAM_PENDING, readyQ := [], itemsReady := false,
    cursorRegistered := false, cursorDrops := 0, endStreamReason := none }

/-- Modelled from the spec: `ActiveStream::next` (body absent from the
provided sources) dequeues and returns the next ready response and never
blocks; with an empty queue it returns nothing, except that the
takeover-send phase moves to TakeoverWait once all items are sent
(spec §4.1/§4.2).  The dead phase only drains what is already queued and
never leaves Dead. -/
def next (s : ActiveStream) : ActiveStream × Option DcpResponse :=
  match s.readyQ with
  | r :: rest => ({ s with readyQ := rest }, some r)
  | [] =>
    if s.state_ = STREAM_TAKEOVER_SEND then
      (transitionState s STREAM_TAKEOVER_WAIT, none)
    else (s, none)

/-- Modelled from the spec: `ActiveStream::notifySeqnoAvailable` (body
absent from the provided sources) wakes production on a live stream by
raising `itemsReady`; a dead stream produces nothing further. -/
def notifySeqnoAvailable (s : ActiveStream) (_seqno : Nat) : ActiveStream :=
  if isActive s then { s with itemsReady := true } else s

/-- The stream operations whose interleavings the lifecycle claims
quantify over. -/
inductive StreamOp where
  | opTransitionState (t : stream_state_t)
  | opSetDead (r : end_stream_status_t)
  | opSetActive
  | opNext
  | opNotifySeqnoAvailable (seqno : Nat)
  deriving DecidableEq, Repr

/-- Apply one stream operation (the response returned by `next` is
irrelevant to the state-machine claims). -/
def applyOp (s : ActiveStream) : StreamOp → ActiveStream
  | .opTransitionState t => transitionState s t
  | .opSetDead r => setDead s r
  | .opSetActive => setActive s
  | .opNext => (next s).1
  | .opNotifySeqnoAvailable n => notifySeqnoAvailable s n

/-- Apply a sequence of stream operations, oldest first. -/
def applyOps (s : ActiveStream) (ops : List StreamOp) : ActiveStream :=
  ops.foldl applyOp s

theorem legalTransition_to_dead (st : stream_state_t) (h : st ≠ STREAM_DEAD) :
    legalTransition st STREAM_DEAD = true := by
  cases st <;> first | rfl | exact absurd rfl h

theorem applyOp_dead (s : ActiveStream) (o : StreamOp)
    (h : s.state_ = STREAM_DEAD) : (applyOp s o).state_ = STREAM_DEAD := by
  cases o with
  | opTransitionState t =>
    simp only [applyOp, transitionState, h]
    cases t <;> simp [legalTransition, h]
  | opSetDead r => simp [applyOp, setDead, h]
  | opSetActive => simp [applyOp, setActive, h]
  | opNext =>
    simp only [applyOp, next]
    cases hq : s.readyQ with
    | nil => simp [h]
    | cons a l => simpa using h
  | opNotifySeqnoAvailable n => simp [applyOp, notifySeqnoAvailable, isActive, h]

/-- C6: Dead is terminal — once a stream's state is Dead, every sequence
of subsequent operations (`transitionState`, `setDead`, `setActive`,
`next`, `notifySeqnoAvailable`) leaves it Dead; no transition out of Dead
is legal. -/
theorem dead_is_terminal (s : ActiveStream) (ops : List StreamOp)
    (h : s.state_ = STREAM_DEAD) :
    (applyOps s ops).state_ = STREAM_DEAD := by
  induction ops generalizing s with
  | nil => exact h
  | cons o rest ih => exact ih (applyOp s o) (applyOp_dead s o h)

theorem dead_is_terminal_witness :
    (transitionState mkActiveStream STREAM_DEAD).state_ = STREAM_DEAD ∧
      (applyOps (transitionState mkActiveStream STREAM_DEAD)
        [StreamOp.opSetActive, StreamOp.opTransitionState STREAM_BACKFILLING,
         StreamOp.opNext]).state_ = STREAM_DEAD := by
  refine ⟨by decide, ?_⟩
  exact dead_is_terminal (transitionState mkActiveStream STREAM_DEAD) _ (by decide)

/-- C8: `setActive` moves a Pending stream to Backfilling, is a no-op
(state and whole stream unchanged) in every other state, and is therefore
effective exactly once: a second call is always a no-op. -/
theorem setActive_once (s : ActiveStream) :
    (s.state_ = STREAM_PENDING → (setActive s).state_ = STREAM_BACKFILLING) ∧
    (s.state_ ≠ STREAM_PENDING → setActive s = s) ∧
    setActive (setActive s) = setActive s := by
  refine ⟨?_, ?_, ?_⟩
  · intro h
    simp [setActive, transitionState, legalTransition, h]
  · intro h
    simp [setActive, h]
  · have key : ∀ t : ActiveStream, t.state_ ≠ STREAM_PENDING → setActive t = t :=
      fun t ht => by simp [setActive, ht]
    by_cases h : s.state_ = STREAM_PENDING
    · have h1 : (setActive s).state_ = STREAM_BACKFILLING := by
        simp [setActive, transitionState, legalTransition, h]
      have h2 : (setActive s).state_ ≠ STREAM_PENDING := by
        rw [h1]; intro hc; cases hc
      exact key (setActive s) h2
    · simp only [key s h]

theorem setActive_once_witness :
    mkActiveStream.state_ = STREAM_PENDING ∧
      (setActive mkActiveStream).state_ = STREAM_BACKFILLING ∧
      setActive (setActive mkActiveStream) = setActive mkActiveStream := by
  refine ⟨rfl, ?_, ?_⟩
  · exact (setActive_once mkActiveStream).1 rfl
  · exact (setActive_once mkActiveStream).2.2

/-- C10: `Stream::isActive` returns true exactly when the state is not
Dead; in particular a freshly constructed stream, still Pending and having
produced nothing, already reports `isActive() = true`. -/
theorem isActive_iff_not_dead (s : ActiveStream) :
    (isActive s = true ↔ s.state_ ≠ STREAM_DEAD) ∧
    mkActiveStream.state_ = STREAM_PENDING ∧
    isActive mkActiveStream = true := by
  refine ⟨?_, rfl, rfl⟩
  simp [isActive]

theorem isActive_iff_not_dead_witness :
    isActive mkActiveStream = true ∧
      (isActive (setDead mkActiveStream END_STREAM_CLOSED) = true ↔
        (setDead mkActiveStream END_STREAM_CLOSED).state_ ≠ STREAM_DEAD) :=
  ⟨(isActive_iff_not_dead mkActiveStream).2.2,
    (isActive_iff_not_dead (setDead mkActiveStream END_STREAM_CLOSED)).1⟩

/-- C5: `setDead` is idempotent — a second call (with any reason) leaves
exactly the state of the first; the first call leaves the stream Dead
with, when it was still live, an empty ready queue and the checkpoint
cursor released exactly once (a registered cursor's release count rises by
one and the second call never releases it again). -/
theorem setDead_idempotent (s : ActiveStream) (r r' : end_stream_status_t) :
    setDead (setDead s r) r' = setDead s r ∧
    (setDead s r).state_ = STREAM_DEAD ∧
    (s.state_ = STREAM_DEAD → setDead s r = s) ∧
    (s.state_ ≠ STREAM_DEAD →
      (setDead s r).readyQ = [] ∧
      (setDead s r).cursorDrops
        = s.cursorDrops + (if s.cursorRegistered then 1 else 0) ∧
      (setDead (setDead s r) r').cursorDrops = (setDead s r).cursorDrops) := by
  by_cases h : s.state_ = STREAM_DEAD
  · refine ⟨?_, ?_, ?_, ?_⟩
    · simp [setDead, h]
    · simp [setDead, h]
    · intro _
      simp [setDead, h]
    · intro hc
      exact absurd h hc
  · have hfirst : setDead s r
        = dropCheckpointCursor
            { s with
                readyQ := []
                endStreamReason := some r
                state_ := STREAM_DEAD } := by
      simp [setDead, h, transitionState, legalTransition_to_dead s.state_ h]
    have hdead : (setDead s r).state_ = STREAM_DEAD := by
      rw [hfirst]
      unfold dropCheckpointCursor
      by_cases hc : s.cursorRegistered <;> simp [hc]
    have key : ∀ (t : ActiveStream) (q : end_stream_status_t),
        t.state_ = STREAM_DEAD → setDead t q = t := fun t q ht => by
      simp [setDead, ht]
    refine ⟨key (setDead s r) r' hdead, hdead, fun hc => absurd hc h, ?_⟩
    intro _
    refine ⟨?_, ?_, ?_⟩
    · rw [hfirst]
      unfold dropCheckpointCursor
      by_cases hc : s.cursorRegistered <;> simp [hc]
    · rw [hfirst]
      unfold dropCheckpointCursor
      by_cases hc : s.cursorRegistered <;> simp [hc]
    · rw [key (setDead s r) r' hdead]

theorem setDead_idempotent_witness :
    setDead (setDead (setActive mkActiveStream) END_STREAM_CLOSED) END_STREAM_OK
        = setDead (setActive mkActiveStream) END_STREAM_CLOSED ∧
      (setDead (setActive mkActiveStream) END_STREAM_CLOSED).state_ = STREAM_DEAD ∧
      (setActive mkActiveStream).state_ ≠ STREAM_DEAD ∧
      (setDead (setActive mkActiveStream) END_STREAM_CLOSED).readyQ = [] := by
  have h := setDead_idempotent (setActive mkActiveStream) END_STREAM_CLOSED END_STREAM_OK
  have hne : (setActive mkActiveStream).state_ ≠ STREAM_DEAD := by decide
  exact ⟨h.1, h.2.1, hne, (h.2.2.2 hne).1⟩

/-! ## Ready-queue accounting (`Stream::pushToReadyQ` / `popFromReadyQ`) -/

/-- The part of `Stream` the ready-queue accounting claims are about: the
mutex-guarded `readyQ`, the atomic `readyQ_non_meta_items` counter and the
atomic `readyQueueMemory` byte counter (dcp/stream.h fields). -/
structure StreamReadyQ where
  readyQ : List DcpResponse
  readyQ_non_meta_items : Nat
  readyQueueMemory : Nat
  deriving DecidableEq, Repr

/-- A stream starts with an empty ready queue and zeroed counters. -/
def StreamReadyQ.initial : StreamReadyQ :=
  { readyQ := [], readyQ_non_meta_items := 0, readyQueueMemory := 0 }

/-- Modelled from the spec: `Stream::pushToReadyQ` (body absent from the
provided sources) appends the response under the stream mutex and
maintains the two counters incrementally — the non-meta item count rises
by one for a non-meta response and `readyQueueMemory` by the response's
message size (spec §3 Stream invariant). -/
def pushToReadyQ (s : StreamReadyQ) (resp : DcpResponse) : StreamReadyQ :=
  { readyQ := s.readyQ ++ [resp]
    readyQ_non_meta_items :=
      s.readyQ_non_meta_items + (if resp.isMetaEvent then 0 else 1)
    readyQueueMemory := s.readyQueueMemory + resp.getMessageSize }

/-- Modelled from the spec: `Stream::popFromReadyQ` (body absent from the
provided sources) removes the front response, if any, under the stream
mutex and decrements the two counters by the same increments `pushToReadyQ`
added for it. -/
def popFromReadyQ (s : StreamReadyQ) : StreamReadyQ :=
  match s.readyQ with
  | [] => s
  | r :: rest =>
    { readyQ := rest
      readyQ_non_meta_items :=
        s.readyQ_non_meta_items - (if r.isMetaEvent then 0 else 1)
      readyQueueMemory := s.readyQueueMemory - r.getMessageSize }

/-- Number of non-meta responses currently in a queue. -/
def nonMetaCount (q : List DcpResponse) : Nat :=
  (q.filter (fun r => !r.isMetaEvent)).length

/-- Total byte size of the responses currently in a queue. -/
def queueBytes (q : List DcpResponse) : Nat :=
  (q.map DcpResponse.getMessageSize).sum

/-- The accounting invariant of spec §3/§5: both atomic counters agree
exactly with the queue contents (hence the non-meta count can never be
negative). -/
def readyQInv (s : StreamReadyQ) : Prop :=
  s.readyQ_non_meta_items = nonMetaCount s.readyQ ∧
    s.readyQueueMemory = queueBytes s.readyQ

/-- The two ready-queue operations performed under the stream mutex. -/
inductive ReadyQOp where
  | push (resp : DcpResponse)
  | pop
  deriving DecidableEq, Repr

/-- Apply one ready-queue operation. -/
def applyReadyQOp (s : StreamReadyQ) : ReadyQOp → StreamReadyQ
  | .push r => pushToReadyQ s r
  | .pop => popFromReadyQ s

/-- Apply a sequence of pushes and pops, oldest first. -/
def applyReadyQOps (s : StreamReadyQ) (ops : List ReadyQOp) : StreamReadyQ :=
  ops.foldl applyReadyQOp s

theorem readyQInv_initial : readyQInv StreamReadyQ.initial := by
  constructor <;> rfl

theorem readyQInv_push (s : StreamReadyQ) (resp : DcpResponse)
    (h : readyQInv s) : readyQInv (pushToReadyQ s resp) := by
  obtain ⟨h1, h2⟩ := h
  constructor
  · show s.readyQ_non_meta_items + _ = nonMetaCount (s.readyQ ++ [resp])
    rw [h1]
    by_cases hm : resp.isMetaEvent <;>
      simp [nonMetaCount, List.filter_append, hm]
  · show s.readyQueueMemory + _ = queueBytes (s.readyQ ++ [resp])
    rw [h2]
    simp [queueBytes]

theorem readyQInv_pop (s : StreamReadyQ) (h : readyQInv s) :
    readyQInv (popFromReadyQ s) := by
  obtain ⟨h1, h2⟩ := h
  unfold popFromReadyQ
  cases hq : s.readyQ with
  | nil => exact ⟨h1, h2⟩
  | cons r rest =>
    rw [hq] at h1 h2
    constructor
    · show s.readyQ_non_meta_items - _ = nonMetaCount rest
      rw [h1]
      by_cases hm : r.isMetaEvent <;>
        simp [nonMetaCount, List.filter_cons, hm]
    · show s.readyQueueMemory - _ = queueBytes rest
      rw [h2]
      simp [queueBytes]

/-- C9: after every `pushToReadyQ` and `popFromReadyQ` — and hence in
every state reachable by any sequence of pushes and pops — the atomic
`readyQ_non_meta_items` counter equals the number of non-meta responses in
`readyQ` (so it is never negative) and `readyQueueMemory` equals the total
byte size of the queued responses. -/
theorem readyQ_accounting (s : StreamReadyQ) (resp : DcpResponse)
    (ops : List ReadyQOp) (h : readyQInv s) :
    readyQInv (pushToReadyQ s resp) ∧ readyQInv (popFromReadyQ s) ∧
      readyQInv (applyReadyQOps s ops) := by
  refine ⟨readyQInv_push s resp h, readyQInv_pop s h, ?_⟩
  induction ops generalizing s with
  | nil => exact h
  | cons o rest ih =>
    cases o with
    | push r => exact ih (pushToReadyQ s r) (readyQInv_push s r h)
    | pop => exact ih (popFromReadyQ s) (readyQInv_pop s h)

theorem readyQ_accounting_witness :
    readyQInv StreamReadyQ.initial ∧
      readyQInv (applyReadyQOps StreamReadyQ.initial
        [ReadyQOp.push (DcpResponse.snapshotMarker 0 2 24),
         ReadyQOp.push (DcpResponse.mutation 1 100),
         ReadyQOp.push (DcpResponse.mutation 2 50),
         ReadyQOp.pop, ReadyQOp.pop]) := by
  refine ⟨readyQInv_initial, ?_⟩
  exact (readyQ_accounting StreamReadyQ.initial (DcpResponse.streamEnd 8) _
    readyQInv_initial).2.2

/-! ## PassiveStream — consumer-side replay (`processMutation` /
`processDeletion`) -/

/-- Engine status codes returned by the passive-stream apply path. -/
inductive ENGINE_ERROR_CODE where
  | ENGINE_SUCCESS
  | ENGINE_ERANGE
  deriving DecidableEq, Repr

export ENGINE_ERROR_CODE (ENGINE_SUCCESS ENGINE_ERANGE)

/-- The part of `PassiveStream` the snapshot/ordering claims are about:
`last_seqno`, the current snapshot bounds `cur_snapshot_start` /
`cur_snapshot_end` (dcp/stream.h fields), and the by-seqnos applied to
local storage so far. -/
structure PassiveStream where
  last_seqno : Nat
  cur_snapshot_start : Nat
  cur_snapshot_end : Nat
  applied : List Nat
  deriving DecidableEq, Repr

/-- Modelled from the spec: `PassiveStream::processMutation` (body absent
from the provided sources) rejects — signals an error, does not apply, does
not advance `last_seqno` — any item whose by-seqno falls outside
`[cur_snapshot_start, cur_snapshot_end]` or is not monotonically
increasing relative to `last_seqno`; on success it applies the item to
storage and advances `last_seqno` to the item's by-seqno (spec §4.4). -/
def processMutation (s : PassiveStream) (bySeqno : Nat) :
    ENGINE_ERROR_CODE × PassiveStream :=
  if bySeqno < s.cur_snapshot_start ∨ s.cur_snapshot_end < bySeqno then
    (ENGINE_ERANGE, s)
  else if bySeqno ≤ s.last_seqno then
    (ENGINE_ERANGE, s)
  else
    (ENGINE_SUCCESS,
      { s with last_seqno := bySeqno, applied := s.applied ++ [bySeqno] })

/-- Modelled from the spec: `PassiveStream::processDeletion` (body absent
from the provided sources) enforces exactly the same snapshot-bounds and
monotonicity rules as `processMutation` before applying the deletion
(spec §4.4). -/
def processDeletion (s : PassiveStream) (bySeqno : Nat) :
    ENGINE_ERROR_CODE × PassiveStream :=
  processMutation s bySeqno

theorem processMutation_cases (s : PassiveStream) (n : Nat) :
    ((n < s.cur_snapshot_start ∨ s.cur_snapshot_end < n ∨ n ≤ s.last_seqno) →
      processMutation s n = (ENGINE_ERANGE, s)) ∧
    ((s.cur_snapshot_start ≤ n ∧ n ≤ s.cur_snapshot_end ∧ s.last_seqno < n) →
      processMutation s n =
        (ENGINE_SUCCESS,
          { s with last_seqno := n, applied := s.applied ++ [n] })) := by
  constructor
  · intro h
    unfold processMutation
    rcases h with h | h | h
    · simp [h]
    · simp [h]
    · by_cases hout : n < s.cur_snapshot_start ∨ s.cur_snapshot_end < n
      · simp [hout]
      · simp [hout, h]
  · intro ⟨h1, h2, h3⟩
    have hout : ¬(n < s.cur_snapshot_start ∨ s.cur_snapshot_end < n) := by
      push_neg
      exact ⟨by omega, by omega⟩
    have hmono : ¬ n ≤ s.last_seqno := by omega
    unfold processMutation
    simp [hout, hmono]

/-- C3: `processMutation`/`processDeletion` reject any item whose by-seqno
lies outside `[cur_snapshot_start, cur_snapshot_end]` or does not exceed
`last_seqno`: an error is returned, nothing is applied to storage and
`last_seqno` is unchanged.  When the item is inside the snapshot and
strictly increases on `last_seqno`, it is applied and `last_seqno`
advances to its by-seqno. -/
theorem passiveStream_snapshot_bounds (s : PassiveStream) (n : Nat) :
    ((n < s.cur_snapshot_start ∨ s.cur_snapshot_end < n ∨ n ≤ s.last_seqno) →
      (processMutation s n).1 = ENGINE_ERANGE ∧ (processMutation s n).2 = s ∧
      (processDeletion s n).1 = ENGINE_ERANGE ∧ (processDeletion s n).2 = s) ∧
    ((s.cur_snapshot_start ≤ n ∧ n ≤ s.cur_snapshot_end ∧ s.last_seqno < n) →
      (processMutation s n).1 = ENGINE_SUCCESS ∧
      (processMutation s n).2.last_seqno = n ∧
      (processMutation s n).2.applied = s.applied ++ [n] ∧
      (processDeletion s n).1 = ENGINE_SUCCESS ∧
      (processDeletion s n).2.last_seqno = n) := by
  obtain ⟨hrej, hok⟩ := processMutation_cases s n
  constructor
  · intro h
    rw [show processDeletion s n = processMutation s n from rfl, hrej h]
    exact ⟨rfl, rfl, rfl, rfl⟩
  · intro h
    rw [show processDeletion s n = processMutation s n from rfl, hok h]
    exact ⟨rfl, rfl, rfl, rfl, rfl⟩

theorem passiveStream_snapshot_bounds_witness :
    ((11 < 1 ∨ (10 : Nat) < 11 ∨ 11 ≤ 0) ∧
      (processMutation ⟨0, 1, 10, []⟩ 11).1 = ENGINE_ERANGE ∧
      (processMutation ⟨0, 1, 10, []⟩ 11).2 = ⟨0, 1, 10, []⟩) ∧
    (((1 : Nat) ≤ 5 ∧ (5 : Nat) ≤ 10 ∧ (0 : Nat) < 5) ∧
      (processMutation ⟨0, 1, 10, []⟩ 5).1 = ENGINE_SUCCESS ∧
      (processMutation ⟨0, 1, 10, []⟩ 5).2.last_seqno = 5) := by
  have h := passiveStream_snapshot_bounds ⟨0, 1, 10, []⟩
  refine ⟨⟨by omega, ?_, ?_⟩, ⟨by omega, ?_, ?_⟩⟩
  · exact ((h 11).1 (by right; left; decide)).1
  · exact ((h 11).1 (by right; left; decide)).2.1
  · exact ((h 5).2 (by refine ⟨by decide, by decide, by decide⟩)).1
  · exact ((h 5).2 (by refine ⟨by decide, by decide, by decide⟩)).2.1

/-! ## ActiveStream backfill flow control (`backfillReceived`) -/

/-- A historical item delivered by the backfill worker: its by-seqno and
its size in bytes. -/
structure Item where
  bySeqno : Nat
  nbytes : Nat
  deriving DecidableEq, Repr

/-- The part of `ActiveStream` the flow-control claim is about: the ready
queue, the `bufferedBackfill` byte/item counters (dcp/stream.h fields) and
the configured byte limit of the consumer's unacknowledged buffer. -/
structure BackfillBuffer where
  readyQ : List DcpResponse
  bytes : Nat
  items : Nat
  byteLimit : Nat
  deriving DecidableEq, Repr

/-- Modelled from the spec: `ActiveStream::backfillReceived` (body absent
from the provided sources) applies producer-side buffering limits — when
the buffered byte count already exceeds the configured limit it returns
false (backpressure) and does not append; otherwise it appends the
mutation response to the ready queue and accounts its bytes and item
(spec §4.2, §8 buffer-over-capacity scenario). -/
def backfillReceived (s : BackfillBuffer) (itm : Item) : Bool × BackfillBuffer :=
  if s.byteLimit < s.bytes then (false, s)
  else
    (true,
      { s with
          readyQ := s.readyQ ++ [DcpResponse.mutation itm.bySeqno itm.nbytes]
          bytes := s.bytes + itm.nbytes
          items := s.items + 1 })

/-- Modelled from the spec: a buffer acknowledgement from the consumer
frees capacity by lowering the unacknowledged buffered byte count; it
touches neither the ready queue nor the configured limit (spec §7 (b)). -/
def bufferAckReceived (s : BackfillBuffer) (freedBytes : Nat) : BackfillBuffer :=
  { s with bytes := s.bytes - freedBytes }

/-- C7: when the buffered-backfill byte count already exceeds the
configured limit, `backfillReceived` returns false and leaves the stream —
in particular the ready queue — untouched; when within the limit it
returns true and appends the item's response; and after an acknowledgement
frees enough capacity, the identical call succeeds and appends. -/
theorem backfillReceived_backpressure (s : BackfillBuffer) (itm : Item)
    (freed : Nat) :
    (s.byteLimit < s.bytes → backfillReceived s itm = (false, s)) ∧
    (s.bytes ≤ s.byteLimit →
      (backfillReceived s itm).1 = true ∧
      (backfillReceived s itm).2.readyQ
        = s.readyQ ++ [DcpResponse.mutation itm.bySeqno itm.nbytes]) ∧
    ((bufferAckReceived s freed).bytes ≤ s.byteLimit →
      (backfillReceived (bufferAckReceived s freed) itm).1 = true ∧
      (backfillReceived (bufferAckReceived s freed) itm).2.readyQ
        = s.readyQ ++ [DcpResponse.mutation itm.bySeqno itm.nbytes]) := by
  refine ⟨?_, ?_, ?_⟩
  · intro h
    simp [backfillReceived, h]
  · intro h
    have hnot : ¬ s.byteLimit < s.bytes := by omega
    simp [backfillReceived, hnot]
  · intro h
    have hnot : ¬ s.byteLimit < s.bytes - freed := by
      simp only [bufferAckReceived] at h
      omega
    constructor
    · simp [backfillReceived, bufferAckReceived, hnot]
    · simp [backfillReceived, bufferAckReceived, hnot]

theorem backfillReceived_backpressure_witness :
    ((20 : Nat) < 30 ∧
      backfillReceived ⟨[], 30, 3, 20⟩ ⟨7, 5⟩ = (false, ⟨[], 30, 3, 20⟩)) ∧
    ((bufferAckReceived ⟨[], 30, 3, 20⟩ 15).bytes ≤ 20 ∧
      (backfillReceived (bufferAckReceived ⟨[], 30, 3, 20⟩ 15) ⟨7, 5⟩).1 = true ∧
      (backfillReceived (bufferAckReceived ⟨[], 30, 3, 20⟩ 15) ⟨7, 5⟩).2.readyQ
        = [DcpResponse.mutation 7 5]) := by
  have h := backfillReceived_backpressure ⟨[], 30, 3, 20⟩ ⟨7, 5⟩ 15
  refine ⟨⟨by decide, h.1 (by decide)⟩, ⟨by decide, ?_, ?_⟩⟩
  · exact (h.2.2 (by decide)).1
  · exact (h.2.2 (by decide)).2

/-! ## ActiveStream sequence-number invariant -/

/-- The part of `ActiveStream` the sequence-number invariant is about:
`lastSentSeqno`, `lastReadSeqno` (snapshotted),
`lastReadSeqnoUnSnapshotted`, `end_seqno_` (dcp/stream.h fields) and the
by-seqnos of the mutation responses currently in the ready queue. -/
structure SeqnoStream where
  lastSentSeqno : Nat
  lastReadSeqno : Nat
  lastReadSeqnoUnSnapshotted : Nat
  end_seqno_ : Nat
  readyItems : List Nat
  deriving DecidableEq, Repr

/-- Modelled from the spec: a stream for `[st_seqno, en_seqno]` starts with
all three seqno counters at the requested start seqno and an empty queue. -/
def mkSeqnoStream (st en : Nat) : SeqnoStream :=
  { lastSentSeqno := st, lastReadSeqno := st, lastReadSeqnoUnSnapshotted := st,
    end_seqno_ := en, readyItems := [] }

/-- Modelled from the spec: on the backfill path (`backfillReceived`) each
historical item — the backfill source delivers the range in seqno order,
strictly after what was already read and never past the stream's end, which
the guard enforces — is snapshotted (bracketed by `markDiskSnapshot`),
queued, and advances the read seqnos to its by-seqno. -/
def seqnoBackfillReceived (s : SeqnoStream) (n : Nat) : SeqnoStream :=
  if s.lastReadSeqnoUnSnapshotted < n ∧ n ≤ s.end_seqno_ then
    { s with
        readyItems := s.readyItems ++ [n]
        lastReadSeqno := n
        lastReadSeqnoUnSnapshotted := n }
  else s

/-- Modelled from the spec: the extraction half of
`ActiveStream::processItems` walks a checkpoint-cursor batch, accumulating
the in-range, strictly increasing items and advancing only
`lastReadSeqnoUnSnapshotted` (the snapshotted `lastReadSeqno` lags until
`snapshot` runs — the transient gap the spec allows inside the critical
section). -/
def extractItems (s : SeqnoStream) (acc : List Nat) : List Nat → SeqnoStream × List Nat
  | [] => (s, acc)
  | n :: rest =>
    if s.lastReadSeqnoUnSnapshotted < n ∧ n ≤ s.end_seqno_ then
      extractItems { s with lastReadSeqnoUnSnapshotted := n } (acc ++ [n]) rest
    else extractItems s acc rest

/-- Modelled from the spec: `ActiveStream::processItems` (body absent from
the provided sources) extracts a checkpoint batch and, when it is
non-empty, `snapshot` pushes the run onto the ready queue and advances the
snapshotted `lastReadSeqno` up to `lastReadSeqnoUnSnapshotted` — all within
one critical section. -/
def seqnoProcessItems (s : SeqnoStream) (batch : List Nat) : SeqnoStream :=
  if (extractItems s [] batch).2 = [] then (extractItems s [] batch).1
  else
    { (extractItems s [] batch).1 with
        readyItems :=
          (extractItems s [] batch).1.readyItems ++ (extractItems s [] batch).2
        lastReadSeqno :=
          (extractItems s [] batch).1.lastReadSeqnoUnSnapshotted }

/-- Modelled from the spec: `next()` dequeues the front queued response and
records its by-seqno as `lastSentSeqno` (the last seqno handed to the
network layer). -/
def seqnoNext (s : SeqnoStream) : SeqnoStream × Option Nat :=
  match s.readyItems with
  | [] => (s, none)
  | m :: rest => ({ s with readyItems := rest, lastSentSeqno := m }, some m)

/-- The spec §4.2 invariant plus the queue bound that sustains it: every
queued by-seqno has already been snapshotted. -/
def seqnoInv (s : SeqnoStream) : Prop :=
  s.lastSentSeqno ≤ s.lastReadSeqno ∧
  s.lastReadSeqno ≤ s.lastReadSeqnoUnSnapshotted ∧
  s.lastReadSeqnoUnSnapshotted ≤ s.end_seqno_ ∧
  ∀ m ∈ s.readyItems, m ≤ s.lastReadSeqno

/-- The operations that touch the seqno counters: a backfill item
delivery, a checkpoint-cursor batch, and a `next()` call. -/
inductive SeqnoOp where
  | opBackfill (n : Nat)
  | opCheckpointBatch (batch : List Nat)
  | opSeqnoNext
  deriving DecidableEq, Repr

/-- Apply one seqno-relevant operation. -/
def applySeqnoOp (s : SeqnoStream) : SeqnoOp → SeqnoStream
  | .opBackfill n => seqnoBackfillReceived s n
  | .opCheckpointBatch b => seqnoProcessItems s b
  | .opSeqnoNext => (seqnoNext s).1

/-- Apply a sequence of seqno-relevant operations, oldest first. -/
def applySeqnoOps (s : SeqnoStream) (ops : List SeqnoOp) : SeqnoStream :=
  ops.foldl applySeqnoOp s

theorem extractItems_spec (batch : List Nat) (s : SeqnoStream) (acc : List Nat) :
    (extractItems s acc batch).1.lastSentSeqno = s.lastSentSeqno ∧
    (extractItems s acc batch).1.lastReadSeqno = s.lastReadSeqno ∧
    (extractItems s acc batch).1.readyItems = s.readyItems ∧
    (extractItems s acc batch).1.end_seqno_ = s.end_seqno_ ∧
    s.lastReadSeqnoUnSnapshotted
      ≤ (extractItems s acc batch).1.lastReadSeqnoUnSnapshotted ∧
    (s.lastReadSeqnoUnSnapshotted ≤ s.end_seqno_ →
      (extractItems s acc batch).1.lastReadSeqnoUnSnapshotted ≤ s.end_seqno_) ∧
    ((∀ m ∈ acc, m ≤ s.lastReadSeqnoUnSnapshotted) →
      ∀ m ∈ (extractItems s acc batch).2,
        m ≤ (extractItems s acc batch).1.lastReadSeqnoUnSnapshotted) := by
  induction batch generalizing s acc with
  | nil =>
    refine ⟨rfl, rfl, rfl, rfl, le_refl _, fun h => h, fun h => h⟩
  | cons n rest ih =>
    by_cases hg : s.lastReadSeqnoUnSnapshotted < n ∧ n ≤ s.end_seqno_
    · have heq : extractItems s acc (n :: rest)
          = extractItems { s with lastReadSeqnoUnSnapshotted := n }
              (acc ++ [n]) rest := by
        simp [extractItems, hg]
      obtain ⟨i1, i2, i3, i4, i5, i6, i7⟩ :=
        ih { s with lastReadSeqnoUnSnapshotted := n } (acc ++ [n])
      rw [heq]
      refine ⟨i1, i2, i3, i4, ?_, ?_, ?_⟩
      · exact le_trans (le_of_lt hg.1) i5
      · intro _
        exact i6 hg.2
      · intro hacc
        refine i7 ?_
        intro m hmem
        rcases List.mem_append.mp hmem with hmem | hmem
        · exact le_trans (hacc m hmem) (le_of_lt hg.1)
        · simp at hmem
          subst hmem
          exact le_refl _
    · have heq : extractItems s acc (n :: rest) = extractItems s acc rest := by
        simp [extractItems, hg]
      rw [heq]
      exact ih s acc

theorem seqnoInv_backfill (s : SeqnoStream) (n : Nat) (h : seqnoInv s) :
    seqnoInv (seqnoBackfillReceived s n) := by
  obtain ⟨h1, h2, h3, h4⟩ := h
  unfold seqnoBackfillReceived
  by_cases hg : s.lastReadSeqnoUnSnapshotted < n ∧ n ≤ s.end_seqno_
  · rw [if_pos hg]
    unfold seqnoInv
    dsimp only
    refine ⟨by omega, le_refl _, hg.2, ?_⟩
    intro m hmem
    rcases List.mem_append.mp hmem with hmem | hmem
    · have := h4 m hmem
      omega
    · simp at hmem
      omega
  · rw [if_neg hg]
    exact ⟨h1, h2, h3, h4⟩

theorem seqnoInv_processItems (s : SeqnoStream) (batch : List Nat)
    (h : seqnoInv s) : seqnoInv (seqnoProcessItems s batch) := by
  obtain ⟨h1, h2, h3, h4⟩ := h
  obtain ⟨i1, i2, i3, i4, i5, i6, i7⟩ := extractItems_spec batch s []
  have i7' := i7 (by intro m hm; cases hm)
  unfold seqnoProcessItems
  by_cases hp : (extractItems s [] batch).2 = []
  · rw [if_pos hp]
    unfold seqnoInv
    refine ⟨by omega, by omega, ?_, ?_⟩
    · rw [i4]
      exact i6 h3
    · intro m hmem
      rw [i3] at hmem
      rw [i2]
      exact h4 m hmem
  · rw [if_neg hp]
    unfold seqnoInv
    dsimp only
    refine ⟨by omega, le_refl _, ?_, ?_⟩
    · rw [i4]
      exact i6 h3
    · intro m hmem
      rcases List.mem_append.mp hmem with hmem | hmem
      · rw [i3] at hmem
        have := h4 m hmem
        omega
      · exact i7' m hmem

theorem seqnoInv_next (s : SeqnoStream) (h : seqnoInv s) :
    seqnoInv (seqnoNext s).1 := by
  obtain ⟨h1, h2, h3, h4⟩ := h
  cases hq : s.readyItems with
  | nil =>
    have heq : seqnoNext s = (s, none) := by
      unfold seqnoNext
      rw [hq]
    rw [heq]
    exact ⟨h1, h2, h3, h4⟩
  | cons m rest =>
    have heq : seqnoNext s
        = ({ s with readyItems := rest, lastSentSeqno := m }, some m) := by
      unfold seqnoNext
      rw [hq]
    rw [heq]
    unfold seqnoInv
    dsimp only
    have hm : m ≤ s.lastReadSeqno :=
      h4 m (by rw [hq]; exact List.mem_cons_self m rest)
    refine ⟨hm, h2, h3, ?_⟩
    intro m' hmem
    exact h4 m' (by rw [hq]; exact List.mem_cons_of_mem m hmem)

/-- C2: in every state reachable from a freshly created stream for
`[st, en]` (with `st ≤ en`) by any interleaving of backfill deliveries,
checkpoint-cursor batches and `next()` calls — in particular after every
`next()` — the chain `lastSentSeqno ≤ lastReadSeqno ≤
lastReadSeqnoUnSnapshotted ≤ end_seqno_` holds (each operation is one
critical section; the chain may only break inside it). -/
theorem activeStream_seqno_invariant (st en : Nat) (ops : List SeqnoOp)
    (h : st ≤ en) :
    (applySeqnoOps (mkSeqnoStream st en) ops).lastSentSeqno
        ≤ (applySeqnoOps (mkSeqnoStream st en) ops).lastReadSeqno ∧
    (applySeqnoOps (mkSeqnoStream st en) ops).lastReadSeqno
        ≤ (applySeqnoOps (mkSeqnoStream st en) ops).lastReadSeqnoUnSnapshotted ∧
    (applySeqnoOps (mkSeqnoStream st en) ops).lastReadSeqnoUnSnapshotted
        ≤ (applySeqnoOps (mkSeqnoStream st en) ops).end_seqno_ := by
  have hinit : seqnoInv (mkSeqnoStream st en) :=
    ⟨le_refl _, le_refl _, h, by intro m hm; cases hm⟩
  have hrun : ∀ (s : SeqnoStream) (l : List SeqnoOp),
      seqnoInv s → seqnoInv (applySeqnoOps s l) := by
    intro s l
    induction l generalizing s with
    | nil => exact fun hs => hs
    | cons o rest ih =>
      intro hs
      refine ih (applySeqnoOp s o) ?_
      cases o with
      | opBackfill n => exact seqnoInv_backfill s n hs
      | opCheckpointBatch b => exact seqnoInv_processItems s b hs
      | opSeqnoNext => exact seqnoInv_next s hs
  obtain ⟨g1, g2, g3, _⟩ := hrun (mkSeqnoStream st en) ops hinit
  exact ⟨g1, g2, g3⟩

theorem activeStream_seqno_invariant_witness :
    (0 : Nat) ≤ 100 ∧
      ((applySeqnoOps (mkSeqnoStream 0 100)
          [SeqnoOp.opBackfill 1, SeqnoOp.opBackfill 3, SeqnoOp.opSeqnoNext,
           SeqnoOp.opCheckpointBatch [4, 7], SeqnoOp.opSeqnoNext,
           SeqnoOp.opSeqnoNext]).lastSentSeqno
        ≤ (applySeqnoOps (mkSeqnoStream 0 100)
          [SeqnoOp.opBackfill 1, SeqnoOp.opBackfill 3, SeqnoOp.opSeqnoNext,
           SeqnoOp.opCheckpointBatch [4, 7], SeqnoOp.opSeqnoNext,
           SeqnoOp.opSeqnoNext]).lastReadSeqno) := by
  refine ⟨by decide, ?_⟩
  exact (activeStream_seqno_invariant 0 100
    [SeqnoOp.opBackfill 1, SeqnoOp.opBackfill 3, SeqnoOp.opSeqnoNext,
     SeqnoOp.opCheckpointBatch [4, 7], SeqnoOp.opSeqnoNext,
     SeqnoOp.opSeqnoNext] (by decide)).1


/-! ## Backfill / checkpoint-cursor merge (`ActiveStream::next` ordering)

The merge contract of spec §4.2: disk backfill covers historical ranges,
the checkpoint cursor everything after, and `next()` must hand out one
seqno-ordered response sequence with no gaps or duplicates relative to
the advertised snapshot bounds, across every interleaving of
`backfillReceived` deliveries, checkpoint-cursor batches and `next()`
calls — including repeated batches and backfill re-entry after
InMemory→Backfilling. -/

/-- The part of `ActiveStream` the merge-ordering claim is about: the
non-empty responses already returned by `next()` (`outQ`, oldest first),
the ready queue, the snapshotted `lastReadSeqno`, and the advertised end
of the most recently emitted snapshot marker. -/
structure MergeStream where
  outQ : List DcpResponse
  readyQ : List DcpResponse
  lastReadSeqno : Nat
  snapEnd : Nat
  deriving DecidableEq, Repr

/-- A stream about to produce from `start`: nothing returned, nothing
queued, read position and advertised bound at the requested start. -/
def initMerge (start : Nat) : MergeStream :=
  { outQ := [], readyQ := [], lastReadSeqno := start, snapEnd := start }

/-- Modelled from the spec: `ActiveStream::markDiskSnapshot` (body absent
from the provided sources) emits one snapshot-marker response advertising
the disk run about to be backfilled (spec §4.2); a marker brackets the
upcoming contiguous run, so its advertised start is no later than the
next undelivered seqno and its end no earlier than the read position —
the guard encodes that §4.2/§6 contract, out-of-contract calls having no
effect. -/
def markDiskSnapshot (s : MergeStream) (st en : Nat) : MergeStream :=
  if st ≤ s.lastReadSeqno + 1 ∧ s.lastReadSeqno ≤ en then
    { s with
        readyQ := s.readyQ ++ [DcpResponse.snapshotMarker st en 0]
        snapEnd := en }
  else s

/-- Modelled from the spec: `ActiveStream::backfillReceived` (body absent
from the provided sources) appends one historical item's mutation
response and advances `lastReadSeqno`; the backfill source delivers the
marked range in seqno order and never re-delivers (spec §4.2/§6), so the
guard accepts exactly the items past the read position and inside the
advertised disk snapshot. -/
def mergeBackfillReceived (s : MergeStream) (n : Nat) : MergeStream :=
  if s.lastReadSeqno < n ∧ n ≤ s.snapEnd then
    { s with
        readyQ := s.readyQ ++ [DcpResponse.mutation n 0]
        lastReadSeqno := n }
  else s

/-- The in-contract part of one checkpoint-cursor batch: the cursor serves
strictly increasing seqnos past the read position and never serves an
item twice (spec §6), which this extraction enforces. -/
def extractBatch (cur : Nat) : List Nat → List Nat
  | [] => []
  | n :: rest => if cur < n then n :: extractBatch n rest else extractBatch cur rest

/-- Modelled from the spec: `ActiveStream::processItems` (body absent from
the provided sources) turns one checkpoint-cursor batch into a snapshot
marker bracketing the run — advertised start is the run's first seqno and
advertised end its last — followed by the run's mutation responses, and
advances `lastReadSeqno` to the run's end (spec §4.2, one marker per
contiguous run). An empty (fully out-of-contract) batch produces
nothing. -/
def mergeProcessItems (s : MergeStream) (batch : List Nat) : MergeStream :=
  match extractBatch s.lastReadSeqno batch with
  | [] => s
  | a :: A =>
    { s with
        readyQ := s.readyQ
          ++ DcpResponse.snapshotMarker a ((a :: A).getLastD 0) 0
            :: (a :: A).map (fun m => DcpResponse.mutation m 0)
        lastReadSeqno := (a :: A).getLastD 0
        snapEnd := (a :: A).getLastD 0 }

/-- Modelled from the spec: `next()` dequeues and returns the front ready
response, never blocking; an empty queue yields nothing. The returned
response is recorded in `outQ`, the cumulative observation of the claim. -/
def mergeNext (s : MergeStream) : MergeStream × Option DcpResponse :=
  match s.readyQ with
  | [] => (s, none)
  | r :: rest => ({ s with outQ := s.outQ ++ [r], readyQ := rest }, some r)

/-- The operations whose arbitrary interleavings the merge claim
quantifies over: marking a disk snapshot, one `backfillReceived` item
delivery, one checkpoint-cursor batch, and one `next()` call. -/
inductive MergeOp where
  | opMarkDiskSnapshot (st en : Nat)
  | opBackfillReceived (n : Nat)
  | opCheckpointBatch (batch : List Nat)
  | opMergeNext
  deriving DecidableEq, Repr

/-- Apply one merge-relevant operation. -/
def applyMergeOp (s : MergeStream) : MergeOp → MergeStream
  | .opMarkDiskSnapshot st en => markDiskSnapshot s st en
  | .opBackfillReceived n => mergeBackfillReceived s n
  | .opCheckpointBatch b => mergeProcessItems s b
  | .opMergeNext => (mergeNext s).1

/-- Apply a sequence of merge-relevant operations, oldest first. -/
def applyMergeOps (s : MergeStream) (ops : List MergeOp) : MergeStream :=
  ops.foldl applyMergeOp s

/-- The full response trace of a stream: what `next()` already returned
followed by what it will return as the queue drains. `next()` only moves
the front of `readyQ` to the back of `outQ`, so the trace is what the
interleaving produced. -/
def mergeTrace (s : MergeStream) : List DcpResponse := s.outQ ++ s.readyQ

/-- The by-seqnos of the mutation responses in a response sequence. -/
def itemSeqnos (rs : List DcpResponse) : List Nat :=
  rs.filterMap fun r =>
    match r with
    | DcpResponse.mutation n _ => some n
    | _ => none

/-- Every mutation lies inside the bounds its preceding snapshot marker
advertised (and none precedes the first marker). -/
def withinSnapshots : Option (Nat × Nat) → List DcpResponse → Bool
  | _, [] => true
  | _, DcpResponse.snapshotMarker a b _ :: rest => withinSnapshots (some (a, b)) rest
  | none, DcpResponse.mutation _ _ :: _ => false
  | some (a, b), DcpResponse.mutation n _ :: rest =>
      decide (a ≤ n) && decide (n ≤ b) && withinSnapshots (some (a, b)) rest
  | cur, DcpResponse.streamEnd _ :: rest => withinSnapshots cur rest

/-- The bounds advertised by the last snapshot marker of a response
sequence (starting from `cur`). -/
def markerAfter (cur : Option (Nat × Nat)) : List DcpResponse → Option (Nat × Nat)
  | [] => cur
  | DcpResponse.snapshotMarker a b _ :: rest => markerAfter (some (a, b)) rest
  | DcpResponse.mutation _ _ :: rest => markerAfter cur rest
  | DcpResponse.streamEnd _ :: rest => markerAfter cur rest

/-- An operation sequence respects the source contracts (§6): every
backfill delivery is past the read position and inside the advertised
disk snapshot, and every cursor batch is served strictly increasing past
the read position, each judged in the state where the operation runs. -/
def opsAccepted : MergeStream → List MergeOp → Bool
  | _, [] => true
  | s, o :: rest =>
    (match o with
     | MergeOp.opBackfillReceived n =>
         decide (s.lastReadSeqno < n) && decide (n ≤ s.snapEnd)
     | MergeOp.opCheckpointBatch b =>
         decide (extractBatch s.lastReadSeqno b = b)
     | _ => true) && opsAccepted (applyMergeOp s o) rest

/-- All item seqnos an operation sequence delivers, in delivery order. -/
def deliveredItems : List MergeOp → List Nat
  | [] => []
  | MergeOp.opBackfillReceived n :: rest => n :: deliveredItems rest
  | MergeOp.opCheckpointBatch b :: rest => b ++ deliveredItems rest
  | _ :: rest => deliveredItems rest

/-- The merge invariant: the trace's items are strictly increasing, every
item sits inside its advertised snapshot, all items are at or below the
read position, and the last advertised marker (if any) brackets the read
position and carries the current `snapEnd`; with no marker yet, nothing
has been produced. -/
def mergeInv (s : MergeStream) : Prop :=
  (itemSeqnos (mergeTrace s)).Pairwise (· < ·) ∧
  withinSnapshots none (mergeTrace s) = true ∧
  (∀ m ∈ itemSeqnos (mergeTrace s), m ≤ s.lastReadSeqno) ∧
  (markerAfter none (mergeTrace s) = none →
    itemSeqnos (mergeTrace s) = [] ∧ s.snapEnd ≤ s.lastReadSeqno) ∧
  (∀ a b : Nat, markerAfter none (mergeTrace s) = some (a, b) →
    a ≤ s.lastReadSeqno + 1 ∧ b = s.snapEnd)

theorem getLastD_ge_self (l : List Nat) (d : Nat) (hl : l.Pairwise (· < ·))
    (hd : ∀ b ∈ l, d ≤ b) : d ≤ l.getLastD d := by
  induction l generalizing d with
  | nil => exact le_refl d
  | cons y ys ih =>
    obtain ⟨hy, hys⟩ := List.pairwise_cons.mp hl
    have h1 : d ≤ y := hd y (List.mem_cons_self y ys)
    have h2 : y ≤ ys.getLastD y := ih y hys (fun b hb => le_of_lt (hy b hb))
    calc d ≤ y := h1
      _ ≤ ys.getLastD y := h2
      _ = (y :: ys).getLastD d := (List.getLastD_cons d y ys).symm

theorem mem_le_getLastD (l : List Nat) (d : Nat) (hl : l.Pairwise (· < ·)) :
    ∀ a ∈ l, a ≤ l.getLastD d := by
  induction l generalizing d with
  | nil => intro a ha; cases ha
  | cons y ys ih =>
    obtain ⟨hy, hys⟩ := List.pairwise_cons.mp hl
    intro a ha
    rw [List.getLastD_cons]
    rcases List.mem_cons.mp ha with ha | ha
    · subst ha
      exact getLastD_ge_self ys a hys (fun b hb => le_of_lt (hy b hb))
    · exact ih y hys a ha

theorem extractBatch_gt (batch : List Nat) (cur : Nat) :
    ∀ m ∈ extractBatch cur batch, cur < m := by
  induction batch generalizing cur with
  | nil => intro m hm; cases hm
  | cons n rest ih =>
    intro m hm
    by_cases hg : cur < n
    · rw [show extractBatch cur (n :: rest) = n :: extractBatch n rest from by
        simp [extractBatch, hg]] at hm
      rcases List.mem_cons.mp hm with hm | hm
      · subst hm; exact hg
      · exact lt_trans hg (ih n m hm)
    · rw [show extractBatch cur (n :: rest) = extractBatch cur rest from by
        simp [extractBatch, hg]] at hm
      exact ih cur m hm

theorem extractBatch_pairwise (batch : List Nat) (cur : Nat) :
    (extractBatch cur batch).Pairwise (· < ·) := by
  induction batch generalizing cur with
  | nil => exact List.Pairwise.nil
  | cons n rest ih =>
    by_cases hg : cur < n
    · rw [show extractBatch cur (n :: rest) = n :: extractBatch n rest from by
        simp [extractBatch, hg]]
      exact List.pairwise_cons.mpr ⟨fun m hm => extractBatch_gt rest n m hm, ih n⟩
    · rw [show extractBatch cur (n :: rest) = extractBatch cur rest from by
        simp [extractBatch, hg]]
      exact ih cur

theorem itemSeqnos_append (l₁ l₂ : List DcpResponse) :
    itemSeqnos (l₁ ++ l₂) = itemSeqnos l₁ ++ itemSeqnos l₂ := by
  simp [itemSeqnos, List.filterMap_append]

theorem itemSeqnos_marker_cons (a b c : Nat) (l : List DcpResponse) :
    itemSeqnos (DcpResponse.snapshotMarker a b c :: l) = itemSeqnos l := by
  simp [itemSeqnos, List.filterMap_cons]

theorem itemSeqnos_map_mut (l : List Nat) :
    itemSeqnos (l.map (fun m => DcpResponse.mutation m 0)) = l := by
  induction l with
  | nil => rfl
  | cons n rest ih => simp [itemSeqnos, List.filterMap_cons] at ih ⊢; exact ih

theorem withinSnapshots_marker (cur : Option (Nat × Nat)) (a b c : Nat)
    (l : List DcpResponse) :
    withinSnapshots cur (DcpResponse.snapshotMarker a b c :: l)
      = withinSnapshots (some (a, b)) l := by
  cases cur with
  | none => rfl
  | some p =>
    obtain ⟨x, y⟩ := p
    rfl

theorem withinSnapshots_mutations (l : List Nat) (a b : Nat)
    (rest : List DcpResponse) (h : ∀ n ∈ l, a ≤ n ∧ n ≤ b) :
    withinSnapshots (some (a, b))
        (l.map (fun m => DcpResponse.mutation m 0) ++ rest)
      = withinSnapshots (some (a, b)) rest := by
  induction l with
  | nil => rfl
  | cons n ns ih =>
    obtain ⟨h1, h2⟩ := h n (List.mem_cons_self n ns)
    have ih' := ih (fun m hm => h m (List.mem_cons_of_mem n hm))
    simp only [List.map_cons, List.cons_append, withinSnapshots, List.append_eq]
    rw [ih']
    simp [h1, h2]

theorem markerAfter_append (cur : Option (Nat × Nat)) (l₁ l₂ : List DcpResponse) :
    markerAfter cur (l₁ ++ l₂) = markerAfter (markerAfter cur l₁) l₂ := by
  induction l₁ generalizing cur with
  | nil => rfl
  | cons r rest ih =>
    cases r <;> simp only [List.cons_append, markerAfter] <;> apply ih

theorem markerAfter_mutations (cur : Option (Nat × Nat)) (l : List Nat) :
    markerAfter cur (l.map (fun m => DcpResponse.mutation m 0)) = cur := by
  induction l with
  | nil => rfl
  | cons n ns ih => simpa [markerAfter] using ih

theorem markerAfter_marker_mutations (cur : Option (Nat × Nat)) (a b c : Nat)
    (l : List Nat) :
    markerAfter cur (DcpResponse.snapshotMarker a b c
        :: l.map (fun m => DcpResponse.mutation m 0)) = some (a, b) := by
  show markerAfter (some (a, b)) (l.map fun m => DcpResponse.mutation m 0)
    = some (a, b)
  exact markerAfter_mutations (some (a, b)) l

theorem withinSnapshots_append (cur : Option (Nat × Nat))
    (l₁ l₂ : List DcpResponse) :
    withinSnapshots cur (l₁ ++ l₂)
      = (withinSnapshots cur l₁ && withinSnapshots (markerAfter cur l₁) l₂) := by
  induction l₁ generalizing cur with
  | nil => simp [withinSnapshots, markerAfter]
  | cons r rest ih =>
    cases r with
    | mutation n msz =>
      cases cur with
      | none => simp [withinSnapshots, markerAfter]
      | some p =>
        obtain ⟨a, b⟩ := p
        simp only [List.cons_append, withinSnapshots, markerAfter, List.append_eq]
        rw [ih (some (a, b))]
        simp [Bool.and_assoc]
    | snapshotMarker a b msz =>
      cases cur with
      | none =>
        simp only [List.cons_append, withinSnapshots, markerAfter]
        exact ih (some (a, b))
      | some p =>
        obtain ⟨x, y⟩ := p
        simp only [List.cons_append, withinSnapshots, markerAfter]
        exact ih (some (a, b))
    | streamEnd msz =>
      cases cur with
      | none =>
        simp only [List.cons_append, withinSnapshots, markerAfter]
        exact ih none
      | some p =>
        obtain ⟨x, y⟩ := p
        simp only [List.cons_append, withinSnapshots, markerAfter]
        exact ih (some (x, y))

theorem mergeNext_fields (s : MergeStream) :
    mergeTrace (mergeNext s).1 = mergeTrace s ∧
    (mergeNext s).1.lastReadSeqno = s.lastReadSeqno ∧
    (mergeNext s).1.snapEnd = s.snapEnd := by
  cases hq : s.readyQ with
  | nil =>
    have heq : mergeNext s = (s, none) := by
      unfold mergeNext
      rw [hq]
    rw [heq]
    exact ⟨rfl, rfl, rfl⟩
  | cons r rest =>
    have heq : mergeNext s
        = ({ s with outQ := s.outQ ++ [r], readyQ := rest }, some r) := by
      unfold mergeNext
      rw [hq]
    rw [heq]
    refine ⟨?_, rfl, rfl⟩
    simp [mergeTrace, hq]

theorem mergeInv_init (start : Nat) : mergeInv (initMerge start) := by
  refine ⟨List.Pairwise.nil, rfl, ?_, ?_, ?_⟩
  · intro m hm
    cases hm
  · intro _
    exact ⟨rfl, le_refl _⟩
  · intro a b hab
    cases hab

theorem mergeInv_next (s : MergeStream) (h : mergeInv s) :
    mergeInv (mergeNext s).1 := by
  obtain ⟨ht, hl, he⟩ := mergeNext_fields s
  unfold mergeInv at h ⊢
  rw [ht, hl, he]
  exact h

theorem mergeInv_markDiskSnapshot (s : MergeStream) (st en : Nat)
    (h : mergeInv s) : mergeInv (markDiskSnapshot s st en) := by
  obtain ⟨h1, h2, h3, h4, h5⟩ := h
  unfold markDiskSnapshot
  by_cases hg : st ≤ s.lastReadSeqno + 1 ∧ s.lastReadSeqno ≤ en
  · rw [if_pos hg]
    have htr : mergeTrace
        { s with
            readyQ := s.readyQ ++ [DcpResponse.snapshotMarker st en 0]
            snapEnd := en }
        = mergeTrace s ++ [DcpResponse.snapshotMarker st en 0] := by
      simp [mergeTrace]
    unfold mergeInv
    rw [htr]
    dsimp only
    have hms : markerAfter none (mergeTrace s ++ [DcpResponse.snapshotMarker st en 0])
        = some (st, en) := by
      rw [markerAfter_append]
      rfl
    refine ⟨?_, ?_, ?_, ?_, ?_⟩
    · rw [itemSeqnos_append]
      simpa [itemSeqnos] using h1
    · rw [withinSnapshots_append, h2]
      rw [withinSnapshots_marker]
      rfl
    · intro m hm
      rw [itemSeqnos_append] at hm
      rcases List.mem_append.mp hm with hm | hm
      · exact h3 m hm
      · simp [itemSeqnos] at hm
    · intro hc
      rw [hms] at hc
      cases hc
    · intro a b hab
      rw [hms] at hab
      simp only [Option.some.injEq, Prod.mk.injEq] at hab
      obtain ⟨hA, hB⟩ := hab
      subst hA
      subst hB
      exact ⟨hg.1, rfl⟩
  · rw [if_neg hg]
    exact ⟨h1, h2, h3, h4, h5⟩

theorem mergeInv_backfillReceived (s : MergeStream) (n : Nat)
    (h : mergeInv s) : mergeInv (mergeBackfillReceived s n) := by
  obtain ⟨h1, h2, h3, h4, h5⟩ := h
  unfold mergeBackfillReceived
  by_cases hg : s.lastReadSeqno < n ∧ n ≤ s.snapEnd
  · rw [if_pos hg]
    obtain ⟨a, b, hab⟩ : ∃ a b : Nat,
        markerAfter none (mergeTrace s) = some (a, b) := by
      cases hma : markerAfter none (mergeTrace s) with
      | none =>
        obtain ⟨_, hse⟩ := h4 hma
        omega
      | some p =>
        obtain ⟨a0, b0⟩ := p
        exact ⟨a0, b0, rfl⟩
    obtain ⟨ha, hb⟩ := h5 a b hab
    have htr : mergeTrace
        { s with
            readyQ := s.readyQ ++ [DcpResponse.mutation n 0]
            lastReadSeqno := n }
        = mergeTrace s ++ [DcpResponse.mutation n 0] := by
      simp [mergeTrace]
    have hmut : ∀ cur : Option (Nat × Nat),
        markerAfter cur [DcpResponse.mutation n 0] = cur := fun cur => rfl
    unfold mergeInv
    rw [htr]
    dsimp only
    refine ⟨?_, ?_, ?_, ?_, ?_⟩
    · rw [itemSeqnos_append]
      rw [show itemSeqnos [DcpResponse.mutation n 0] = [n] from rfl]
      refine List.pairwise_append.mpr ⟨h1, List.pairwise_singleton _ _, ?_⟩
      intro x hx y hy
      simp at hy
      subst hy
      have := h3 x hx
      omega
    · rw [withinSnapshots_append, h2, hab]
      have han : a ≤ n := by omega
      have hnb : n ≤ b := by omega
      simp [withinSnapshots, han, hnb]
    · intro m hm
      rw [itemSeqnos_append] at hm
      rcases List.mem_append.mp hm with hm | hm
      · have := h3 m hm
        omega
      · rw [show itemSeqnos [DcpResponse.mutation n 0] = [n] from rfl] at hm
        simp at hm
        omega
    · intro hc
      rw [markerAfter_append, hmut, hab] at hc
      cases hc
    · intro a' b' hab'
      rw [markerAfter_append, hmut, hab] at hab'
      simp only [Option.some.injEq, Prod.mk.injEq] at hab'
      obtain ⟨hA, hB⟩ := hab'
      constructor
      · omega
      · omega
  · rw [if_neg hg]
    exact ⟨h1, h2, h3, h4, h5⟩

theorem mergeInv_processItems (s : MergeStream) (batch : List Nat)
    (h : mergeInv s) : mergeInv (mergeProcessItems s batch) := by
  obtain ⟨h1, h2, h3, h4, h5⟩ := h
  cases hA : extractBatch s.lastReadSeqno batch with
  | nil =>
    have heq : mergeProcessItems s batch = s := by
      unfold mergeProcessItems
      rw [hA]
    rw [heq]
    exact ⟨h1, h2, h3, h4, h5⟩
  | cons a A =>
    have hgt : ∀ m ∈ a :: A, s.lastReadSeqno < m := by
      rw [← hA]
      exact extractBatch_gt batch s.lastReadSeqno
    have hpw : (a :: A).Pairwise (· < ·) := by
      rw [← hA]
      exact extractBatch_pairwise batch s.lastReadSeqno
    have hle : ∀ m ∈ a :: A, m ≤ (a :: A).getLastD 0 :=
      mem_le_getLastD (a :: A) 0 hpw
    have hheadle : ∀ m ∈ a :: A, a ≤ m := by
      intro m hm
      rcases List.mem_cons.mp hm with hm | hm
      · exact le_of_eq hm.symm
      · exact le_of_lt ((List.pairwise_cons.mp hpw).1 m hm)
    have haL : a ≤ (a :: A).getLastD 0 := hle a (List.mem_cons_self a A)
    have hLgt : s.lastReadSeqno < (a :: A).getLastD 0 :=
      lt_of_lt_of_le (hgt a (List.mem_cons_self a A)) haL
    have heq : mergeProcessItems s batch
        = { s with
            readyQ := s.readyQ
              ++ DcpResponse.snapshotMarker a ((a :: A).getLastD 0) 0
                :: (a :: A).map (fun m => DcpResponse.mutation m 0)
            lastReadSeqno := (a :: A).getLastD 0
            snapEnd := (a :: A).getLastD 0 } := by
      unfold mergeProcessItems
      rw [hA]
    rw [heq]
    have htr : mergeTrace
        { s with
            readyQ := s.readyQ
              ++ DcpResponse.snapshotMarker a ((a :: A).getLastD 0) 0
                :: (a :: A).map (fun m => DcpResponse.mutation m 0)
            lastReadSeqno := (a :: A).getLastD 0
            snapEnd := (a :: A).getLastD 0 }
        = mergeTrace s
          ++ DcpResponse.snapshotMarker a ((a :: A).getLastD 0) 0
            :: (a :: A).map (fun m => DcpResponse.mutation m 0) := by
      simp [mergeTrace]
    unfold mergeInv
    rw [htr]
    dsimp only
    have hms : markerAfter none (mergeTrace s
          ++ DcpResponse.snapshotMarker a ((a :: A).getLastD 0) 0
            :: (a :: A).map (fun m => DcpResponse.mutation m 0))
        = some (a, (a :: A).getLastD 0) := by
      rw [markerAfter_append]
      exact markerAfter_marker_mutations _ _ _ _ _
    refine ⟨?_, ?_, ?_, ?_, ?_⟩
    · rw [itemSeqnos_append, itemSeqnos_marker_cons, itemSeqnos_map_mut]
      refine List.pairwise_append.mpr ⟨h1, hpw, ?_⟩
      intro x hx y hy
      exact lt_of_le_of_lt (h3 x hx) (hgt y hy)
    · rw [withinSnapshots_append, h2, withinSnapshots_marker]
      have hw := withinSnapshots_mutations (a :: A) a ((a :: A).getLastD 0) []
        (fun q hq => ⟨hheadle q hq, hle q hq⟩)
      rw [List.append_nil] at hw
      rw [hw]
      rfl
    · intro m hm
      rw [itemSeqnos_append, itemSeqnos_marker_cons, itemSeqnos_map_mut] at hm
      rcases List.mem_append.mp hm with hm | hm
      · exact le_trans (h3 m hm) (le_of_lt hLgt)
      · exact hle m hm
    · intro hc
      rw [hms] at hc
      cases hc
    · intro a' b' hab'
      rw [hms] at hab'
      simp only [Option.some.injEq, Prod.mk.injEq] at hab'
      obtain ⟨hA', hB'⟩ := hab'
      constructor
      · omega
      · omega

theorem applyMergeOps_items (l : List MergeOp) (s : MergeStream)
    (h : opsAccepted s l = true) :
    itemSeqnos (mergeTrace (applyMergeOps s l))
      = itemSeqnos (mergeTrace s) ++ deliveredItems l := by
  induction l generalizing s with
  | nil => simp [applyMergeOps, deliveredItems]
  | cons o rest ih =>
    have hstep : applyMergeOps s (o :: rest)
        = applyMergeOps (applyMergeOp s o) rest := rfl
    cases o with
    | opMarkDiskSnapshot st en =>
      have h' : opsAccepted (applyMergeOp s (MergeOp.opMarkDiskSnapshot st en))
          rest = true := by
        rw [show opsAccepted s (MergeOp.opMarkDiskSnapshot st en :: rest)
            = (true && opsAccepted
                (applyMergeOp s (MergeOp.opMarkDiskSnapshot st en)) rest)
          from rfl] at h
        simpa using h
      rw [hstep, ih _ h']
      have hmk : itemSeqnos
            (mergeTrace (applyMergeOp s (MergeOp.opMarkDiskSnapshot st en)))
          = itemSeqnos (mergeTrace s) := by
        show itemSeqnos (mergeTrace (markDiskSnapshot s st en)) = _
        unfold markDiskSnapshot
        by_cases hg : st ≤ s.lastReadSeqno + 1 ∧ s.lastReadSeqno ≤ en
        · rw [if_pos hg]
          have htr : mergeTrace
              { s with
                  readyQ := s.readyQ ++ [DcpResponse.snapshotMarker st en 0]
                  snapEnd := en }
              = mergeTrace s ++ [DcpResponse.snapshotMarker st en 0] := by
            simp [mergeTrace]
          rw [htr, itemSeqnos_append]
          simp [itemSeqnos]
        · rw [if_neg hg]
      rw [hmk]
      rfl
    | opBackfillReceived n =>
      have hread : opsAccepted s (MergeOp.opBackfillReceived n :: rest)
          = ((decide (s.lastReadSeqno < n) && decide (n ≤ s.snapEnd))
            && opsAccepted (applyMergeOp s (MergeOp.opBackfillReceived n)) rest)
          := rfl
      rw [hread, Bool.and_eq_true, Bool.and_eq_true, decide_eq_true_eq,
        decide_eq_true_eq] at h
      obtain ⟨⟨hg1, hg2⟩, hrest⟩ := h
      rw [hstep, ih _ hrest]
      have hbk : itemSeqnos
            (mergeTrace (applyMergeOp s (MergeOp.opBackfillReceived n)))
          = itemSeqnos (mergeTrace s) ++ [n] := by
        show itemSeqnos (mergeTrace (mergeBackfillReceived s n)) = _
        unfold mergeBackfillReceived
        rw [if_pos ⟨hg1, hg2⟩]
        have htr : mergeTrace
            { s with
                readyQ := s.readyQ ++ [DcpResponse.mutation n 0]
                lastReadSeqno := n }
            = mergeTrace s ++ [DcpResponse.mutation n 0] := by
          simp [mergeTrace]
        rw [htr, itemSeqnos_append]
        rfl
      rw [hbk]
      simp [deliveredItems]
    | opCheckpointBatch b =>
      have hread : opsAccepted s (MergeOp.opCheckpointBatch b :: rest)
          = (decide (extractBatch s.lastReadSeqno b = b)
            && opsAccepted (applyMergeOp s (MergeOp.opCheckpointBatch b)) rest)
          := rfl
      rw [hread, Bool.and_eq_true, decide_eq_true_eq] at h
      obtain ⟨hg, hrest⟩ := h
      rw [hstep, ih _ hrest]
      have hpr : itemSeqnos
            (mergeTrace (applyMergeOp s (MergeOp.opCheckpointBatch b)))
          = itemSeqnos (mergeTrace s) ++ b := by
        show itemSeqnos (mergeTrace (mergeProcessItems s b)) = _
        cases hb : b with
        | nil =>
          have heq : mergeProcessItems s [] = s := rfl
          rw [heq]
          simp
        | cons a A =>
          have heq : mergeProcessItems s (a :: A)
              = { s with
                  readyQ := s.readyQ
                    ++ DcpResponse.snapshotMarker a ((a :: A).getLastD 0) 0
                      :: (a :: A).map (fun m => DcpResponse.mutation m 0)
                  lastReadSeqno := (a :: A).getLastD 0
                  snapEnd := (a :: A).getLastD 0 } := by
            rw [hb] at hg
            unfold mergeProcessItems
            rw [hg]
          rw [heq]
          have htr : mergeTrace
              { s with
                  readyQ := s.readyQ
                    ++ DcpResponse.snapshotMarker a ((a :: A).getLastD 0) 0
                      :: (a :: A).map (fun m => DcpResponse.mutation m 0)
                  lastReadSeqno := (a :: A).getLastD 0
                  snapEnd := (a :: A).getLastD 0 }
              = mergeTrace s
                ++ DcpResponse.snapshotMarker a ((a :: A).getLastD 0) 0
                  :: (a :: A).map (fun m => DcpResponse.mutation m 0) := by
            simp [mergeTrace]
          rw [htr, itemSeqnos_append, itemSeqnos_marker_cons, itemSeqnos_map_mut]
      rw [hpr]
      simp [deliveredItems]
    | opMergeNext =>
      have h' : opsAccepted (applyMergeOp s MergeOp.opMergeNext) rest = true := by
        rw [show opsAccepted s (MergeOp.opMergeNext :: rest)
            = (true && opsAccepted (applyMergeOp s MergeOp.opMergeNext) rest)
          from rfl] at h
        simpa using h
      rw [hstep, ih _ h']
      have hnx : mergeTrace (applyMergeOp s MergeOp.opMergeNext) = mergeTrace s :=
        (mergeNext_fields s).1
      rw [hnx]
      rfl

/-- C1: for every interleaving of `backfillReceived` item deliveries,
disk-snapshot markings, checkpoint-cursor batches (each bracketed by its
own snapshot marker) and `next()` calls — including repeated batches,
backfill re-entry and `next()` calls at any point — the non-empty
responses returned by successive `next()` calls (`outQ`) carry strictly
increasing item seqnos with every mutation inside its advertised snapshot
bounds; the same holds for the whole produced trace (what further
`next()` calls will return), so ordering is preserved across every
disk→memory merge point; and when the deliveries respect the
backfill/cursor source contracts, the trace's items are exactly the
delivered seqnos, once each, in order — no gaps, no duplicates. -/
theorem activeStream_merge_ordered (start : Nat) (ops : List MergeOp) :
    (itemSeqnos (applyMergeOps (initMerge start) ops).outQ).Pairwise (· < ·) ∧
    withinSnapshots none (applyMergeOps (initMerge start) ops).outQ = true ∧
    (itemSeqnos (mergeTrace (applyMergeOps (initMerge start) ops))).Pairwise
      (· < ·) ∧
    withinSnapshots none (mergeTrace (applyMergeOps (initMerge start) ops))
      = true ∧
    (opsAccepted (initMerge start) ops = true →
      itemSeqnos (mergeTrace (applyMergeOps (initMerge start) ops))
        = deliveredItems ops) := by
  have hrun : ∀ (l : List MergeOp) (s : MergeStream),
      mergeInv s → mergeInv (applyMergeOps s l) := by
    intro l
    induction l with
    | nil => exact fun s hs => hs
    | cons o rest ih =>
      intro s hs
      refine ih (applyMergeOp s o) ?_
      cases o with
      | opMarkDiskSnapshot st en => exact mergeInv_markDiskSnapshot s st en hs
      | opBackfillReceived n => exact mergeInv_backfillReceived s n hs
      | opCheckpointBatch b => exact mergeInv_processItems s b hs
      | opMergeNext => exact mergeInv_next s hs
  obtain ⟨g1, g2, _, _, _⟩ := hrun ops (initMerge start) (mergeInv_init start)
  have hsplit : mergeTrace (applyMergeOps (initMerge start) ops)
      = (applyMergeOps (initMerge start) ops).outQ
        ++ (applyMergeOps (initMerge start) ops).readyQ := rfl
  refine ⟨?_, ?_, g1, g2, ?_⟩
  · have hp := g1
    rw [hsplit, itemSeqnos_append] at hp
    exact (List.pairwise_append.mp hp).1
  · have hw := g2
    rw [hsplit, withinSnapshots_append, Bool.and_eq_true] at hw
    exact hw.1
  · intro hacc
    rw [applyMergeOps_items ops (initMerge start) hacc]
    rfl

theorem activeStream_merge_ordered_witness :
    opsAccepted (initMerge 0)
        [MergeOp.opMarkDiskSnapshot 0 2, MergeOp.opBackfillReceived 1,
         MergeOp.opMergeNext, MergeOp.opMergeNext, MergeOp.opBackfillReceived 2,
         MergeOp.opCheckpointBatch [3, 4], MergeOp.opMergeNext,
         MergeOp.opMergeNext, MergeOp.opMergeNext, MergeOp.opMergeNext]
      = true ∧
    itemSeqnos (mergeTrace (applyMergeOps (initMerge 0)
        [MergeOp.opMarkDiskSnapshot 0 2, MergeOp.opBackfillReceived 1,
         MergeOp.opMergeNext, MergeOp.opMergeNext, MergeOp.opBackfillReceived 2,
         MergeOp.opCheckpointBatch [3, 4], MergeOp.opMergeNext,
         MergeOp.opMergeNext, MergeOp.opMergeNext, MergeOp.opMergeNext]))
      = [1, 2, 3, 4] ∧
    (itemSeqnos (applyMergeOps (initMerge 0)
        [MergeOp.opMarkDiskSnapshot 0 2, MergeOp.opBackfillReceived 1,
         MergeOp.opMergeNext, MergeOp.opMergeNext, MergeOp.opBackfillReceived 2,
         MergeOp.opCheckpointBatch [3, 4], MergeOp.opMergeNext,
         MergeOp.opMergeNext, MergeOp.opMergeNext, MergeOp.opMergeNext]).outQ
      ).Pairwise (· < ·) := by
  have h := activeStream_merge_ordered 0
    [MergeOp.opMarkDiskSnapshot 0 2, MergeOp.opBackfillReceived 1,
     MergeOp.opMergeNext, MergeOp.opMergeNext, MergeOp.opBackfillReceived 2,
     MergeOp.opCheckpointBatch [3, 4], MergeOp.opMergeNext,
     MergeOp.opMergeNext, MergeOp.opMergeNext, MergeOp.opMergeNext]
  refine ⟨by decide, ?_, h.1⟩
  rw [h.2.2.2.2 (by decide)]
  rfl

end KVEngine
